/-
Verification of the pushlog synchronization and changeset-provenance engine
(hgext/mozext/__init__.py) against its specification.

The source is shallowly embedded: Python functions become Lean functions,
stateful mutation becomes explicit state passing, and the effects a function
performs (store writes, ui warnings, status messages, raised exceptions) are
returned as data.  Changeset identifiers (40-char hex node ids in the source,
converted with bin()/hex()) are kept as their hex strings throughout, which is
faithful because bin is injective on the identifiers the protocol carries.
Components that live outside this repository (mercurial itself and the
mozautomation ChangeTracker store) are modelled from the spec where a claim
needs them; each such definition carries a doc comment saying so.
-/
import Mathlib

/-! ## String utilities

The source uses Python's `str.split`, `str.startswith`, `str.endswith` and
`int()`.  They are re-implemented structurally over `String.data` so that every
definition reduces in the kernel and is easy to reason about. -/

/-- Python `s.split(sep)` for a one-character separator: splits at every
occurrence, keeping empty fields (so consecutive separators and leading or
trailing separators yield empty strings), and `''.split(sep) == ['']`. -/
def splitChars (sep : Char) : List Char → List (List Char)
  | [] => [[]]
  | c :: cs =>
    match splitChars sep cs with
    | [] => [[]]
    | g :: gs => if c = sep then [] :: g :: gs else (c :: g) :: gs

/-- Python `s.split(' ')` (no maxsplit). -/
def splitSpaces (s : String) : List String :=
  (splitChars ' ' s.data).map (fun l => String.mk l)

/-- Joins fields back with single spaces (the payload of Python's
`s.split(' ', 3)` last element). -/
def joinSpaces : List String → String
  | [] => ""
  | [s] => s
  | s :: rest => s ++ " " ++ joinSpaces rest

/-- Python `s.split(' ', 3)`: at most three splits, the remainder is kept
whole as the fourth field. -/
def splitSpace3 (s : String) : List String :=
  match splitSpaces s with
  | a :: b :: c :: rest@(_ :: _) => [a, b, c, joinSpaces rest]
  | l => l

/-- Python `s.split()` on space-delimited content: fields are the non-empty
runs between spaces. -/
def splitWs (s : String) : List String :=
  (splitSpaces s).filter (fun t => ¬ t.isEmpty)

/-- Python `int(s)` on the protocol's decimal fields: defined exactly on
non-empty all-digit strings (the fields the protocol carries), `none`
standing for the ValueError int() raises otherwise. -/
def strToNat? (s : String) : Option Nat :=
  if s.data ≠ [] ∧ s.data.all Char.isDigit then
    some (s.data.foldl (fun acc c => acc * 10 + (c.toNat - 48)) 0)
  else none

/-- `leads pat l`: the char list `pat` is an initial segment of `l`
(Python `str.startswith` at the char-list level). -/
def listLeads : List Char → List Char → Bool
  | [], _ => true
  | _ :: _, [] => false
  | a :: as, b :: bs => a = b && listLeads as bs

/-- Python `s.startswith(pat)`. -/
def strLeads (pat s : String) : Bool := listLeads pat.data s.data

/-- Python `s.endswith(pat)`. -/
def strEndsWith (s pat : String) : Bool :=
  listLeads pat.data.reverse s.data.reverse

/-! ## Sorting

Python's `sorted` on strings / keys, embedded as insertion sort (stability
is irrelevant here: all sorted collections have unique keys). -/

/-- Python string `<=`: code-point-lexicographic, a proper initial segment
comparing smaller. -/
def charListLe : List Char → List Char → Bool
  | [], _ => true
  | _ :: _, [] => false
  | a :: as, b :: bs => if a = b then charListLe as bs else decide (a < b)

def strLe (a b : String) : Bool := charListLe a.data b.data

def insertLe {α : Type} (le : α → α → Bool) (a : α) : List α → List α
  | [] => [a]
  | b :: bs => if le a b then a :: b :: bs else b :: insertLe le a bs

def sortLe {α : Type} (le : α → α → Bool) : List α → List α
  | [] => []
  | a :: as => insertLe le a (sortLe le as)

/-- `sorted` for lists of strings (Python sorts code-point-lexicographically,
as does the `String` linear order). -/
def sortStrings (l : List String) : List String :=
  sortLe strLe l

/-- `sorted` by string key for association lists (Python
`sorted(d.items())` with unique keys compares the keys). -/
def sortByStringKey {α : Type} (l : List (String × α)) : List (String × α) :=
  sortLe (fun a b => strLe a.1 b.1) l

/-- `sorted` by a numeric key. -/
def sortByNatKey {α : Type} (key : α → Nat) (l : List α) : List α :=
  sortLe (fun a b => decide (key a ≤ key b)) l

/-! ## The revision graph (RevisionGraph, provided by the host engine)

Mercurial revisions are numbered `0, 1, 2, …` and every parent of a revision
has a strictly smaller revision number; `changelog.findmissingrevs(common,
heads)` returns the revisions that are ancestors (inclusive) of a head but not
ancestors (inclusive) of any element of `common`. -/

structure Changelog where
  parents : Nat → List Nat
  parents_lt : ∀ r, ∀ p ∈ parents r, p < r

/-- The ancestor set of a revision, inclusive of the revision itself. -/
def ancSet (cl : Changelog) (r : Nat) : Finset Nat :=
  insert r ((cl.parents r).attach.foldr
    (fun p acc => ancSet cl p.1 ∪ acc) ∅)
termination_by r
decreasing_by exact cl.parents_lt r p.1 p.2

/-- Ancestors (inclusive) of every element of a finite revision set: what
`findmissingrevs` treats the `common` argument's closure as. -/
def ancClosure (cl : Changelog) (s : Finset Nat) : Finset Nat :=
  s.biUnion (ancSet cl)

/-- `changelog.findmissingrevs(common=..., heads=...)`. -/
def findmissingrevs (cl : Changelog) (common : Finset Nat) (heads : List Nat) :
    Finset Nat :=
  (heads.foldr (fun h acc => ancSet cl h ∪ acc) ∅) \ ancClosure cl common

/-! ## `_earliest_version_ancestors` (mozext reposetup, lines 1471-1493)

Input: the output shape of `_release_versions`, a dict from version string to
a tuple whose second component is the head node of that version's release
branch.  The dict is processed in ascending sorted key order; each version
receives the revisions reachable from its head that are not ancestors of
anything already seen. -/

/-- The loop of `_earliest_version_ancestors`: `seen` accumulates every
revision already attributed to an earlier version. -/
def earliestVersionLoop (cl : Changelog) (revOf : String → Nat) :
    List (String × String) → Finset Nat → List (String × Finset Nat)
  | [], _ => []
  | (version, node) :: rest, seen =>
    let ancestors := findmissingrevs cl seen [revOf node]
    (version, ancestors) :: earliestVersionLoop cl revOf rest (seen ∪ ancestors)

/-- `_earliest_version_ancestors(versions)`: `versions` maps a version string
to its head node (the `e[1]` component of `_release_versions` entries, looked
up to a revision by `revOf`, the embedding of `self[e[1]].rev()`). -/
def earliest_version_ancestors (cl : Changelog) (revOf : String → Nat)
    (versions : List (String × String)) : List (String × Finset Nat) :=
  earliestVersionLoop cl revOf (sortByStringKey versions) ∅

/-- Union of a list of finite sets. -/
def unionFinsets (l : List (Finset Nat)) : Finset Nat :=
  l.foldr (fun s acc => s ∪ acc) ∅

/-- Union of the full (inclusive) ancestor sets of all the versions' heads. -/
def allVersionAncestors (cl : Changelog) (revOf : String → Nat)
    (versions : List (String × String)) : Finset Nat :=
  versions.foldr (fun v acc => ancSet cl (revOf v.2) ∪ acc) ∅

/-! ## The pushlog store (PushLogStore)

Modelled from the spec: the persisted store is `mozautomation.changetracker.
ChangeTracker`, which is not among the repository files staged here (only its
callers are).  Per spec section 4.1 / 6 it records rows `Push(tree, push_id,
user, when, node list)` in ingestion order, `last_push_id(tree)` is the id of
the most recently stored push of the tree, `add_pushes` appends a batch, and
the push head is implicitly the last node of a push's changeset list. -/

/-- One pushlog record `(push_id, user, when, changeset list)`. -/
structure PushRec where
  pushid : Nat
  who : String
  when : Nat
  nodes : List String
deriving DecidableEq

/-- The push head: the last node of the push's changeset list (the spec's
"last node is implicitly the push head"; a record with no nodes has the empty
head). -/
def PushRec.headNode (r : PushRec) : String := r.nodes.getLast?.getD ""

/-- Modelled from the spec: the ChangeTracker store's push table, rows
`(tree, push)` in ingestion order. -/
structure ChangeTracker where
  pushes : List (String × PushRec)
deriving DecidableEq

/-- Modelled from the spec: `last_push_id(tree) → optional int`, the id of the
last push stored for the tree. -/
def last_push_id (t : ChangeTracker) (tree : String) : Option Nat :=
  (((t.pushes.filter (fun p => p.1 = tree)).map (fun p => p.2.pushid))).getLast?

/-- Modelled from the spec: `add_pushes(tree, pushes)` appends the batch. -/
def add_pushes (t : ChangeTracker) (tree : String) (ps : List PushRec) :
    ChangeTracker :=
  ⟨t.pushes ++ ps.map (fun r => (tree, r))⟩

/-- Modelled from the spec: `pushes_for_changeset(node)`, every stored push
whose changeset list contains the node. -/
def pushes_for_changeset (t : ChangeTracker) (node : String) :
    List (String × PushRec) :=
  t.pushes.filter (fun p => node ∈ p.2.nodes)

/-- Modelled from the spec: `tree_push_head_changesets(tree)`, the ascending
by-push-id sequence of `(push_id, head_changeset)` for the tree. -/
def tree_push_head_changesets (t : ChangeTracker) (tree : String) :
    List (Nat × String) :=
  (sortByNatKey (fun p => p.2.pushid) (t.pushes.filter (fun p => p.1 = tree))).map
    (fun p => (p.2.pushid, p.2.headNode))

/-! ## `exchangepullpushlog` (lines 403-464): the pushlog sync client

The wrapper around `exchange._pullobsolete` that fetches pushlog data after a
content pull.  Its observable effects are returned as data: the store after
the run, the `add_pushes` calls made, the ui warnings, and the ui status
messages; a raised exception (`error.Abort`, `StopIteration`, `IndexError`,
`ValueError`) is an `Except.error` carrying the message. -/

/-- The facts about the pull operation the wrapper consults: whether the
remote advertises the `pushlog` capability, the tree the remote URL resolves
to (`None` for unknown remotes), whether the local index (`repo.changetracker`)
is enabled, and whether the transport is ssh. -/
structure PullOp where
  capablePushlog : Bool
  tree : Option String
  hasChangetracker : Bool
  isSsh : Bool

/-- The effects of one `exchangepullpushlog` run. -/
structure SyncEffects where
  store : ChangeTracker
  addPushesCalls : List (String × List PushRec)
  warnings : List String
  statusMsgs : List String
deriving DecidableEq

/-- `fetchfrom = lastpushid + 1 if lastpushid is not None else 0`
(lines 431-432). -/
def fetchFrom (t : ChangeTracker) (tree : String) : Nat :=
  match last_push_id t tree with
  | some l => l + 1
  | none => 0

/-- The warning at line 455. -/
def unknownChangesetWarning : String :=
  "received pushlog entry for unknown changeset; ignoring\n"

/-- The warning at lines 427-428. -/
def sshWarning : String :=
  "cannot fetch pushlog when pulling via ssh://; you should be pulling via https://\n"

/-- The record-processing loop (lines 444-458): parse each line with
`line.split(' ', 3)`, resolve every listed node against the local repo
(`repoNodes`), and on the first unknown node warn and stop; `int()`
conversions happen, as in the source, only when a record is appended.
`acc` holds the accepted records in reverse. -/
def processPushLines (repoNodes : List String) :
    List String → List PushRec → List String →
    Except String (List PushRec × List String)
  | [], acc, warns => .ok (acc.reverse, warns)
  | line :: rest, acc, warns =>
    match splitSpace3 line with
    | [pushid, who, when, nodesField] =>
      let nodes := splitWs nodesField
      if nodes.all (fun n => repoNodes.contains n) then
        match strToNat? pushid, strToNat? when with
        | some pid, some w =>
          processPushLines repoNodes rest
            ({ pushid := pid, who := who, when := w, nodes := nodes } :: acc) warns
        | _, _ => .error "ValueError: invalid literal for int()"
      else
        .ok (acc.reverse, warns ++ [unknownChangesetWarning])
    | _ => .error "ValueError: not enough values to unpack"

/-- Lines 431-462: compute `fetchfrom`, issue the wire call, check the
status line, process the records, and store the verified batch. -/
def fetchAndIngest (tree : String) (tracker : ChangeTracker)
    (repoNodes : List String) (remote : Nat → List String) :
    Except String SyncEffects :=
  match remote (fetchFrom tracker tree) with
  | [] => .error "StopIteration"
  | statusline :: rest =>
    match statusline.data with
    | [] => .error "IndexError: string index out of range"
    | c :: _ =>
      if c = '0' then
        match rest with
        | [] => .error "StopIteration"
        | msg :: _ => .error ("remote error fetching pushlog: " ++ msg)
      else if statusline ≠ "1" then
        .error ("error fetching pushlog: unexpected response: " ++ statusline ++ "\n")
      else
        match processPushLines repoNodes rest [] [] with
        | .error e => .error e
        | .ok (pushes, warns) =>
          if pushes.isEmpty then .ok ⟨tracker, [], warns, []⟩
          else
            .ok ⟨add_pushes tracker tree pushes, [(tree, pushes)], warns,
                 ["added " ++ toString pushes.length ++ " pushes\n"]⟩

/-- `exchangepullpushlog(orig, pullop)` after the wrapped pull has succeeded:
the pushlog-fetching part of lines 403-464.  `remote fp` is the fetch
protocol response (already split into lines) for `firstpush = fp`. -/
def exchangepullpushlog (op : PullOp) (tracker : ChangeTracker)
    (repoNodes : List String) (remote : Nat → List String) :
    Except String SyncEffects :=
  if op.capablePushlog = false then .ok ⟨tracker, [], [], []⟩ else
  match op.tree with
  | none => .ok ⟨tracker, [], [], []⟩
  | some tree =>
    if op.hasChangetracker = false then .ok ⟨tracker, [], [], []⟩ else
    if tree = "try" then .ok ⟨tracker, [], [], []⟩ else
    if op.isSsh then .ok ⟨tracker, [], [sshWarning], []⟩ else
    fetchAndIngest tree tracker repoNodes remote

/-- Parsing one response record line to the fields the loop accepts
(used to state theorems about well-formed responses). -/
def parsePushLine (line : String) : Option PushRec :=
  match splitSpace3 line with
  | [pushid, who, when, nodesField] =>
    match strToNat? pushid, strToNat? when with
    | some pid, some w =>
      some { pushid := pid, who := who, when := w, nodes := splitWs nodesField }
    | _, _ => none
  | _ => none

/-- All record lines of a response, parsed in order. -/
def parseAll : List String → Option (List PushRec)
  | [] => some []
  | l :: ls =>
    match parsePushLine l, parseAll ls with
    | some r, some rs => some (r :: rs)
    | _, _ => none

/-- A record all of whose changesets resolve in the local repo. -/
def recResolvable (repoNodes : List String) (r : PushRec) : Bool :=
  r.nodes.all (fun n => repoNodes.contains n)

/-! ## `syncpushinfo` — the `pushlogsync` command (lines 586-610)

Effects as data: whether `wipe_pushlog` ran, the `load_pushlog` calls made
(one per tree, `load_pushlog` being the ChangeTracker's explicit sync, outside
the staged files), the warnings, and the command's return value. -/

structure SyncAllEffects where
  wiped : Bool
  loadCalls : List String
  warnings : List String
  ret : Option Nat
deriving DecidableEq

/-- `syncpushinfo(ui, repo, tree=None, **opts)`: `hasTracker` is whether
`repo.changetracker` is enabled, `repos` the known tree names (the keys of
`mozautomation.repository.REPOS`). -/
def syncpushinfo (hasTracker : Bool) (reset : Bool) (repos : List String) :
    SyncAllEffects :=
  if hasTracker = false then
    ⟨false, [], ["Local database appears to be disabled."], some 1⟩
  else if reset then ⟨true, [], [], none⟩
  else ⟨false, sortStrings repos, [], none⟩

/-! ## Index-disabled entry points (lines 598-599, 613-616, 675-678)

Modelled from the spec / host: the mercurial `ui` object these commands
receive provides the methods `warn`, `status`, `write` and `progress`; it has
no `warning` method, so attribute lookup of a missing method name raises
AttributeError.  `callUi name msg` is one attempted ui method call. -/

def uiMethods : List String := ["warn", "status", "write", "progress"]

def callUi (name msg : String) : Except String (String × String) :=
  if uiMethods.contains name then .ok (name, msg)
  else .error ("AttributeError: no ui method " ++ name)

/-- The `if not repo.changetracker` path of `syncpushinfo` (lines 598-600):
`ui.warn(...)`, then `return 1`. -/
def syncpushinfoDisabledPath : Except String ((String × String) × Nat) :=
  match callUi "warn" "Local database appears to be disabled." with
  | .ok c => .ok (c, 1)
  | .error e => .error e

/-- The `if not repo.changetracker` path of `print_changeset_pushes`
(lines 614-616): `ui.warn(...)`, then `return 1`. -/
def printChangesetPushesDisabledPath : Except String ((String × String) × Nat) :=
  match callUi "warn" "Local database appears to be disabled." with
  | .ok c => .ok (c, 1)
  | .error e => .error e

/-- The `if not repo.changetracker` path of `buginfo` (lines 676-678):
the source calls `ui.warning(...)` — a method mercurial's ui does not have —
then would `return 1`. -/
def buginfoDisabledPath : Except String ((String × String) × Nat) :=
  match callUi "warning" "Local database appears to be disabled" with
  | .ok c => .ok (c, 1)
  | .error e => .error e

/-! ## `wrappedpull` bug association (lines 754-779)

After the wrapped pull returns, the wrapper walks
`repo.changelog.revs(old_rev + 1)` — where `old_rev = len(repo)` was sampled
before the pull — and associates the bugs parsed from each walked revision's
description.  Effects as data: the `(rev, bugs)` associations stored. -/

/-- `changelog.revs(start)` on a repository of `stop` revisions:
`start, start+1, …, stop-1`. -/
def changelogRevs (start stop : Nat) : List Nat := List.range' start (stop - start)

/-- The bug-association pass of `wrappedpull`: `parseBugsOf rev` embeds
`parse_bugs(repo[rev].description())`, `oldRev` is the pre-pull `len(repo)`,
`newLen` the post-pull `len(repo)`. -/
def wrappedpullBugSync (parseBugsOf : Nat → List Nat) (hasTracker : Bool)
    (oldRev newLen : Nat) : List (Nat × List Nat) :=
  (changelogRevs (oldRev + 1) newLen).filterMap (fun rev =>
    let bugs := parseBugsOf rev
    if ¬ bugs.isEmpty ∧ hasTracker then some (rev, bugs) else none)

/-! ## `revset_pushhead` (lines 974-1018)

The one-argument branch iterates `tree_push_head_changesets(tree)`, resolves
each head changeset to a local revision, silently skips heads that do not
resolve (`RepoLookupError`), and intersects with the candidate subset; the
generator yields in the store's ascending push-id order.  The no-argument
branch filters the subset to changesets that head some recorded push of any
tree. -/

/-- The `pushheads()` generator with its push ids: `(push_id, rev)` for each
store entry whose head resolves (`revOf` embeds `repo[head].rev()`, `none`
standing for RepoLookupError). -/
def pushheadPairs (revOf : String → Option Nat) (t : ChangeTracker)
    (tree : String) : List (Nat × Nat) :=
  (tree_push_head_changesets t tree).filterMap
    (fun e => (revOf e.2).map (fun r => (e.1, r)))

/-- `pushhead(TREE)`: the generated revisions, restricted to the subset. -/
def revset_pushhead_tree (revOf : String → Option Nat) (t : ChangeTracker)
    (tree : String) (subset : List Nat) : List Nat :=
  ((pushheadPairs revOf t tree).map (fun e => e.2)).filter
    (fun r => subset.contains r)

/-- `pushhead()` with no argument: `is_pushhead` filters the subset
(`nodeOf` embeds `repo[r].node()`). -/
def revset_pushhead_noarg (nodeOf : Nat → String) (t : ChangeTracker)
    (subset : List Nat) : List Nat :=
  subset.filter (fun r =>
    (pushes_for_changeset t (nodeOf r)).any (fun p => p.2.headNode = nodeOf r))

/-! ## `_update_remote_refs` (lines 1388-1417): the remote-ref reconciler

`remoterefs` is a dict from ref name (`tree/branch`) to node; the embedding is
an association list with dict lookup semantics.  Writes within one
reconciliation process the incoming branch map in order, with the last node
of a multi-head branch winning; refs of the tree absent from the incoming set
are then pruned. -/

def lookupRef (refs : List (String × String)) (k : String) : Option String :=
  (refs.find? (fun p => p.1 = k)).map (fun p => p.2)

/-- `self.remoterefs[ref] = node`. -/
def setRef (refs : List (String × String)) (k v : String) :
    List (String × String) :=
  (k, v) :: refs.filter (fun p => ¬ p.1 = k)

/-- `del self.remoterefs[ref]`. -/
def delRef (refs : List (String × String)) (k : String) :
    List (String × String) :=
  refs.filter (fun p => ¬ p.1 = k)

/-- `for node in nodes: self.remoterefs[ref] = node`. -/
def writeNodes (refs : List (String × String)) (ref : String) :
    List String → List (String × String)
  | [] => refs
  | n :: ns => writeNodes (setRef refs ref n) ref ns

/-- The ref name `'%s/%s' % (tree, branch)`. -/
def refName (tree branch : String) : String := tree ++ "/" ++ branch

/-- The RELBRANCH exclusion (lines 1397-1400): RELBRANCH-suffixed branches
are skipped for trees outside `TREE_ALIASES['releases']` (`releaseTrees`). -/
def branchKept (tree branch : String) (releaseTrees : List String) : Bool :=
  ¬ (strEndsWith branch "RELBRANCH" ∧ ¬ releaseTrees.contains tree)

/-- The incoming ref set accumulated by the branch loop. -/
def incomingRefs (tree : String) (branchmap : List (String × List String))
    (releaseTrees : List String) : List String :=
  branchmap.filterMap (fun bn =>
    if branchKept tree bn.1 releaseTrees then some (refName tree bn.1) else none)

/-- The branch-map write loop (lines 1396-1407). -/
def writeBranches (refs : List (String × String)) (tree : String)
    (releaseTrees : List String) :
    List (String × List String) → List (String × String)
  | [] => refs
  | bn :: rest =>
    if branchKept tree bn.1 releaseTrees then
      writeBranches (writeNodes refs (refName tree bn.1) bn.2) tree releaseTrees rest
    else
      writeBranches refs tree releaseTrees rest

/-- The prune loop (lines 1409-1414). -/
def pruneRefs (refs : List (String × String)) :
    List String → List (String × String)
  | [] => refs
  | r :: rest => pruneRefs (delRef refs r) rest

/-- `_update_remote_refs(remote, tree)`: `branchmap` is
`remote.branchmap().items()` in iteration order. -/
def update_remote_refs (refs : List (String × String)) (tree : String)
    (branchmap : List (String × List String)) (releaseTrees : List String) :
    List (String × String) :=
  let existing := (refs.map (fun p => p.1)).filter
    (fun r => strLeads (tree ++ "/") r)
  let written := writeBranches refs tree releaseTrees branchmap
  let incoming := incomingRefs tree branchmap releaseTrees
  pruneRefs written (existing.filter (fun r => ¬ incoming.contains r))

/-! ## Basic lemmas about the utilities -/

theorem mem_insertLe {α : Type} (le : α → α → Bool) (a : α) (l : List α) (x : α) :
    x ∈ insertLe le a l ↔ x = a ∨ x ∈ l := by
  induction l with
  | nil => simp [insertLe]
  | cons b bs ih =>
    by_cases h : le a b = true
    · simp [insertLe, h]
    · simp only [insertLe, if_neg h, List.mem_cons, ih]
      tauto

theorem mem_sortLe {α : Type} (le : α → α → Bool) (l : List α) (x : α) :
    x ∈ sortLe le l ↔ x ∈ l := by
  induction l with
  | nil => simp [sortLe]
  | cons a as ih => simp [sortLe, mem_insertLe, ih]

theorem insertLe_perm {α : Type} (le : α → α → Bool) (a : α) (l : List α) :
    (insertLe le a l).Perm (a :: l) := by
  induction l with
  | nil => simp [insertLe]
  | cons b bs ih =>
    by_cases h : le a b = true
    · simp [insertLe, h]
    · rw [insertLe, if_neg h]
      exact (List.Perm.cons b ih).trans (List.Perm.swap a b bs)

theorem sortLe_perm {α : Type} (le : α → α → Bool) (l : List α) :
    (sortLe le l).Perm l := by
  induction l with
  | nil => simp [sortLe]
  | cons a as ih =>
    exact (insertLe_perm le a (sortLe le as)).trans (List.Perm.cons a ih)

theorem sortByNatKey_pairwise {α : Type} (key : α → Nat) (l : List α) :
    (sortByNatKey key l).Pairwise (fun a b => key a ≤ key b) := by
  unfold sortByNatKey
  induction l with
  | nil => simp [sortLe]
  | cons a as ih =>
    rw [sortLe]
    generalize hs : sortLe (fun a b => decide (key a ≤ key b)) as = s at ih
    clear hs
    induction s with
    | nil => simp [insertLe]
    | cons b bs ihb =>
      rcases ih with - | ⟨hb, hbs⟩
      by_cases h : decide (key a ≤ key b) = true
      · rw [insertLe, if_pos h]
        have hab : key a ≤ key b := of_decide_eq_true h
        refine List.Pairwise.cons ?_ (List.Pairwise.cons hb hbs)
        intro x hx
        rcases List.mem_cons.1 hx with rfl | hx
        · exact hab
        · exact hab.trans (hb x hx)
      · rw [insertLe, if_neg h]
        have hba : key b ≤ key a := le_of_not_le (fun hc => h (decide_eq_true hc))
        refine List.Pairwise.cons ?_ (ihb hbs)
        intro x hx
        rcases (mem_insertLe _ a bs x).1 hx with rfl | hx
        · exact hba
        · exact hb x hx

theorem listLeads_iff (p l : List Char) :
    listLeads p l = true ↔ ∃ t, l = p ++ t := by
  induction p generalizing l with
  | nil => simp [listLeads]
  | cons a as ih =>
    cases l with
    | nil =>
      simp only [listLeads, List.append_eq]
      constructor
      · intro h; cases h
      · rintro ⟨t, ht⟩; cases ht
    | cons b bs =>
      rw [listLeads, Bool.and_eq_true, decide_eq_true_eq, ih]
      constructor
      · rintro ⟨rfl, t, rfl⟩; exact ⟨t, rfl⟩
      · rintro ⟨t, ht⟩
        rw [List.cons_append] at ht
        cases ht
        exact ⟨rfl, t, rfl⟩

theorem listLeads_append (p t : List Char) : listLeads p (p ++ t) = true :=
  (listLeads_iff p (p ++ t)).2 ⟨t, rfl⟩

/-! ## C10: the post-pull bug-association pass -/

theorem mem_wrappedpullBugSync (parseBugsOf : Nat → List Nat)
    (oldRev newLen r : Nat) (bugs : List Nat) :
    (r, bugs) ∈ wrappedpullBugSync parseBugsOf true oldRev newLen ↔
      (oldRev + 1 ≤ r ∧ r < newLen ∧ bugs = parseBugsOf r ∧
        (parseBugsOf r).isEmpty = false) := by
  unfold wrappedpullBugSync changelogRevs
  rw [List.mem_filterMap]
  constructor
  · rintro ⟨a, ha, hfa⟩
    rw [List.mem_range'_1] at ha
    dsimp only at hfa
    split at hfa
    · rename_i hcond
      simp only [Option.some.injEq, Prod.mk.injEq] at hfa
      obtain ⟨rfl, rfl⟩ := hfa
      refine ⟨by omega, by omega, rfl, ?_⟩
      simpa using hcond.1
    · cases hfa
  · rintro ⟨h1, h2, rfl, hne⟩
    refine ⟨r, ?_, ?_⟩
    · rw [List.mem_range'_1]; omega
    · simp [hne]

/-- C10: after a pull from a known tree adding `n` new changesets on top of
pre-pull length `L`, the wrapped pull's bug pass walks `changelog.revs(L+1)`,
so revision `L` — the first new changeset — is never associated by this pass,
while every later new revision with parsed bugs is. -/
theorem c10_first_new_changeset_never_associated
    (parseBugsOf : Nat → List Nat) (L n : Nat) :
    (∀ bugs, (L, bugs) ∉ wrappedpullBugSync parseBugsOf true L (L + n)) ∧
    (∀ j, 1 ≤ j → j < n →
      ((L + j, parseBugsOf (L + j)) ∈ wrappedpullBugSync parseBugsOf true L (L + n)
        ↔ (parseBugsOf (L + j)).isEmpty = false)) := by
  constructor
  · intro bugs h
    have := (mem_wrappedpullBugSync parseBugsOf L (L + n) L bugs).1 h
    omega
  · intro j hj1 hj2
    rw [mem_wrappedpullBugSync]
    constructor
    · rintro ⟨-, -, -, h⟩; exact h
    · intro h; exact ⟨by omega, by omega, rfl, h⟩

/-! ## C9: entry points with the local index disabled -/

/-- C9: with the local index disabled, `syncpushinfo` and
`print_changeset_pushes` warn via `ui.warn` and return 1, but `buginfo` calls
`ui.warning`, a method the host ui does not provide, so its disabled path
raises AttributeError instead of warning and returning 1. -/
theorem c9_buginfo_disabled_path_raises :
    buginfoDisabledPath = .error "AttributeError: no ui method warning" ∧
    syncpushinfoDisabledPath
      = .ok (("warn", "Local database appears to be disabled."), 1) ∧
    printChangesetPushesDisabledPath
      = .ok (("warn", "Local database appears to be disabled."), 1) :=
  ⟨rfl, rfl, rfl⟩

/-! ## C5: the `pushlogsync` command with `--reset` -/

/-- C5 counterexample: invoked with `reset=true` on trees
`["central", "inbound"]`, the command wipes the store and makes no
`load_pushlog` call at all, while a run without reset syncs both trees —
so the reset option does suppress the per-tree synchronization. -/
theorem c5_reset_skips_sync_counterexample :
    (syncpushinfo true true ["central", "inbound"]).wiped = true ∧
    (syncpushinfo true true ["central", "inbound"]).loadCalls = [] ∧
    (syncpushinfo true false ["central", "inbound"]).loadCalls
      = ["central", "inbound"] :=
  ⟨rfl, rfl, rfl⟩

/-- C5 amended: with `reset=true` the command wipes the pushlog store and
returns immediately, syncing no tree; only without `reset` does it call the
per-tree sync for each known tree in ascending sorted order. -/
theorem c5_reset_wipes_and_returns (repos : List String) :
    (syncpushinfo true true repos).wiped = true ∧
    (syncpushinfo true true repos).loadCalls = [] ∧
    (syncpushinfo true false repos).wiped = false ∧
    (syncpushinfo true false repos).loadCalls = sortStrings repos :=
  ⟨rfl, rfl, rfl, rfl⟩

/-! ## C1: the earliest-version ancestor partition -/

theorem mem_foldr_union {α : Type} (f : α → Finset Nat) (l : List α) (x : Nat) :
    (x ∈ l.foldr (fun a acc => f a ∪ acc) ∅) ↔ ∃ a ∈ l, x ∈ f a := by
  induction l with
  | nil => simp
  | cons a as ih => simp [ih]

theorem mem_ancSet_aux (cl : Changelog) (l : List Nat) (x : Nat) :
    (x ∈ l.attach.foldr (fun p acc => ancSet cl p.1 ∪ acc) ∅) ↔
      ∃ p ∈ l, x ∈ ancSet cl p := by
  constructor
  · intro hx
    obtain ⟨p, _, h⟩ :=
      (mem_foldr_union (fun p : {a // a ∈ l} => ancSet cl p.1) l.attach x).1 hx
    exact ⟨p.1, p.2, h⟩
  · rintro ⟨p, hp, hx⟩
    exact (mem_foldr_union (fun p : {a // a ∈ l} => ancSet cl p.1) l.attach x).2
      ⟨⟨p, hp⟩, List.mem_attach _ _, hx⟩

theorem mem_ancSet (cl : Changelog) (r x : Nat) :
    x ∈ ancSet cl r ↔ x = r ∨ ∃ p ∈ cl.parents r, x ∈ ancSet cl p := by
  rw [ancSet, Finset.mem_insert]
  exact or_congr_right (mem_ancSet_aux cl (cl.parents r) x)

theorem self_mem_ancSet (cl : Changelog) (r : Nat) : r ∈ ancSet cl r :=
  (mem_ancSet cl r r).2 (Or.inl rfl)

theorem ancSet_subset_of_mem (cl : Changelog) :
    ∀ q p, p ∈ ancSet cl q → ancSet cl p ⊆ ancSet cl q := by
  intro q
  induction q using Nat.strong_induction_on with
  | _ q ih =>
    intro p hp
    rcases (mem_ancSet cl q p).1 hp with h | ⟨par, hpar, hmem⟩
    · subst h; exact subset_rfl
    · have h1 : ancSet cl p ⊆ ancSet cl par :=
        ih par (cl.parents_lt q par hpar) p hmem
      have h2 : ancSet cl par ⊆ ancSet cl q := by
        intro x hx
        exact (mem_ancSet cl q x).2 (Or.inr ⟨par, hpar, hx⟩)
      exact h1.trans h2

theorem mem_ancClosure (cl : Changelog) (s : Finset Nat) (x : Nat) :
    x ∈ ancClosure cl s ↔ ∃ c ∈ s, x ∈ ancSet cl c :=
  Finset.mem_biUnion

theorem subset_ancClosure (cl : Changelog) (s : Finset Nat) :
    s ⊆ ancClosure cl s := by
  intro x hx
  exact (mem_ancClosure cl s x).2 ⟨x, hx, self_mem_ancSet cl x⟩

theorem ancClosure_union (cl : Changelog) (s t : Finset Nat) :
    ancClosure cl (s ∪ t) = ancClosure cl s ∪ ancClosure cl t := by
  ext x
  simp only [mem_ancClosure, Finset.mem_union]
  constructor
  · rintro ⟨c, hc | hc, hx⟩
    · exact Or.inl ⟨c, hc, hx⟩
    · exact Or.inr ⟨c, hc, hx⟩
  · rintro (⟨c, hc, hx⟩ | ⟨c, hc, hx⟩)
    · exact ⟨c, Or.inl hc, hx⟩
    · exact ⟨c, Or.inr hc, hx⟩

theorem ancClosure_subset_ancSet (cl : Changelog) (t : Finset Nat) (r : Nat)
    (h : t ⊆ ancSet cl r) : ancClosure cl t ⊆ ancSet cl r := by
  intro x hx
  obtain ⟨c, hc, hxc⟩ := (mem_ancClosure cl t x).1 hx
  exact ancSet_subset_of_mem cl r c (h hc) hxc

theorem findmissingrevs_single (cl : Changelog) (common : Finset Nat) (h : Nat) :
    findmissingrevs cl common [h] = ancSet cl h \ ancClosure cl common := by
  simp [findmissingrevs]

/-- Growing `seen` by one version's exclusive ancestors extends its ancestor
closure by exactly that version's full ancestor set. -/
theorem ancClosure_step (cl : Changelog) (seen : Finset Nat) (h : Nat) :
    ancClosure cl (seen ∪ (ancSet cl h \ ancClosure cl seen))
      = ancSet cl h ∪ ancClosure cl seen := by
  rw [ancClosure_union]
  ext x
  simp only [Finset.mem_union]
  constructor
  · rintro (hx | hx)
    · exact Or.inr hx
    · exact Or.inl (ancClosure_subset_ancSet cl _ h Finset.sdiff_subset hx)
  · rintro (hx | hx)
    · by_cases hxs : x ∈ ancClosure cl seen
      · exact Or.inl hxs
      · exact Or.inr (subset_ancClosure cl _ (Finset.mem_sdiff.2 ⟨hx, hxs⟩))
    · exact Or.inl hx

theorem earliestVersionLoop_disjoint_closure (cl : Changelog)
    (revOf : String → Nat) :
    ∀ (l : List (String × String)) (seen : Finset Nat),
      ∀ s ∈ (earliestVersionLoop cl revOf l seen).map Prod.snd,
        Disjoint s (ancClosure cl seen) := by
  intro l
  induction l with
  | nil => intro seen s hs; simp [earliestVersionLoop] at hs
  | cons vn rest ih =>
    intro seen s hs
    obtain ⟨v, node⟩ := vn
    simp only [earliestVersionLoop, findmissingrevs_single, List.map_cons,
      List.mem_cons] at hs
    rcases hs with rfl | hs
    · exact Finset.sdiff_disjoint
    · have hd := ih (seen ∪ (ancSet cl (revOf node) \ ancClosure cl seen)) s hs
      rw [ancClosure_step] at hd
      exact hd.mono_right Finset.subset_union_right

theorem earliestVersionLoop_union (cl : Changelog) (revOf : String → Nat) :
    ∀ (l : List (String × String)) (seen : Finset Nat),
      unionFinsets ((earliestVersionLoop cl revOf l seen).map Prod.snd)
          ∪ ancClosure cl seen
        = allVersionAncestors cl revOf l ∪ ancClosure cl seen := by
  intro l
  induction l with
  | nil => intro seen; simp [earliestVersionLoop, unionFinsets, allVersionAncestors]
  | cons vn rest ih =>
    intro seen
    obtain ⟨v, node⟩ := vn
    have hstep := ancClosure_step cl seen (revOf node)
    have hih := ih (seen ∪ (ancSet cl (revOf node) \ ancClosure cl seen))
    rw [hstep] at hih
    simp only [earliestVersionLoop, findmissingrevs_single, List.map_cons]
    ext x
    have hx := Finset.ext_iff.1 hih x
    simp only [unionFinsets, allVersionAncestors, List.foldr_cons,
      Finset.mem_union, Finset.mem_sdiff] at hx ⊢
    constructor
    · rintro ((⟨hA, hC⟩ | hU) | hC)
      · exact Or.inl (Or.inl hA)
      · rcases hx.1 (Or.inl hU) with hAV | (hA | hC)
        · exact Or.inl (Or.inr hAV)
        · exact Or.inl (Or.inl hA)
        · exact Or.inr hC
      · exact Or.inr hC
    · rintro ((hA | hAV) | hC)
      · by_cases hC : x ∈ ancClosure cl seen
        · exact Or.inr hC
        · exact Or.inl (Or.inl ⟨hA, hC⟩)
      · rcases hx.2 (Or.inl hAV) with hU | (hA | hC)
        · exact Or.inl (Or.inr hU)
        · by_cases hC : x ∈ ancClosure cl seen
          · exact Or.inr hC
          · exact Or.inl (Or.inl ⟨hA, hC⟩)
        · exact Or.inr hC
      · exact Or.inr hC

theorem earliestVersionLoop_pairwise (cl : Changelog) (revOf : String → Nat) :
    ∀ (l : List (String × String)) (seen : Finset Nat),
      ((earliestVersionLoop cl revOf l seen).map Prod.snd).Pairwise Disjoint := by
  intro l
  induction l with
  | nil => intro seen; simp [earliestVersionLoop]
  | cons vn rest ih =>
    intro seen
    obtain ⟨v, node⟩ := vn
    simp only [earliestVersionLoop, findmissingrevs_single, List.map_cons]
    refine List.Pairwise.cons ?_ (ih _)
    intro s hs
    have hd := earliestVersionLoop_disjoint_closure cl revOf rest
      (seen ∪ (ancSet cl (revOf node) \ ancClosure cl seen)) s hs
    rw [ancClosure_step] at hd
    have hsub : ancSet cl (revOf node) \ ancClosure cl seen
        ⊆ ancSet cl (revOf node) ∪ ancClosure cl seen :=
      Finset.sdiff_subset.trans Finset.subset_union_left
    exact (hd.mono_right hsub).symm

theorem mem_allVersionAncestors (cl : Changelog) (revOf : String → Nat)
    (l : List (String × String)) (x : Nat) :
    x ∈ allVersionAncestors cl revOf l ↔ ∃ v ∈ l, x ∈ ancSet cl (revOf v.2) := by
  unfold allVersionAncestors
  exact mem_foldr_union (fun v : String × String => ancSet cl (revOf v.2)) l x

/-- C1: `_earliest_version_ancestors` partitions: the per-version revision
sets it returns are pairwise disjoint, and their union is the union of the
full (inclusive) ancestor sets of all the versions' head revisions. -/
theorem c1_earliest_version_ancestors_partition (cl : Changelog)
    (revOf : String → Nat) (versions : List (String × String)) :
    ((earliest_version_ancestors cl revOf versions).map Prod.snd).Pairwise
        Disjoint ∧
    unionFinsets ((earliest_version_ancestors cl revOf versions).map Prod.snd)
      = allVersionAncestors cl revOf versions := by
  constructor
  · exact earliestVersionLoop_pairwise cl revOf (sortByStringKey versions) ∅
  · have h := earliestVersionLoop_union cl revOf (sortByStringKey versions) ∅
    have hC : ancClosure cl (∅ : Finset Nat) = ∅ := by
      simp [ancClosure]
    rw [hC, Finset.union_empty, Finset.union_empty] at h
    rw [earliest_version_ancestors, h]
    ext x
    rw [mem_allVersionAncestors, mem_allVersionAncestors]
    constructor
    · rintro ⟨v, hv, hx⟩
      exact ⟨v, (mem_sortLe _ versions v).1 hv, hx⟩
    · rintro ⟨v, hv, hx⟩
      exact ⟨v, (mem_sortLe _ versions v).2 hv, hx⟩

/-! ## The record-processing loop, characterized -/

theorem processPushLines_cons_of_parse (repoNodes : List String)
    (line : String) (rest : List String) (r : PushRec) (acc : List PushRec)
    (warns : List String) (hp : parsePushLine line = some r) :
    processPushLines repoNodes (line :: rest) acc warns =
      (if recResolvable repoNodes r then
        processPushLines repoNodes rest (r :: acc) warns
      else .ok (acc.reverse, warns ++ [unknownChangesetWarning])) := by
  unfold parsePushLine at hp
  split at hp
  · rename_i pushid who when nodesField heq
    split at hp
    · rename_i pid w hpid hw
      rw [Option.some.injEq] at hp
      subst hp
      show (match splitSpace3 line with
        | [pushid, who, when, nodesField] => _
        | _ => _) = _
      rw [heq]
      dsimp only
      rw [hpid, hw]
      rfl
    · cases hp
  · cases hp

theorem takeWhile_split {α : Type} (p : α → Bool) (pre : List α) (bad : α)
    (post : List α) (hpre : pre.all p = true) (hbad : p bad = false) :
    (pre ++ bad :: post).takeWhile p = pre := by
  induction pre with
  | nil => simp [List.takeWhile_cons, hbad]
  | cons a as ih =>
    simp only [List.all_cons, Bool.and_eq_true] at hpre
    simp [List.takeWhile_cons, hpre.1, ih hpre.2]

/-- What the loop computes on a well-formed (fully parseable) response body:
all records up to and excluding the first unresolvable one, with the
unknown-changeset warning exactly when such a record exists. -/
theorem processPushLines_eq (repoNodes : List String) :
    ∀ (lines : List String) (recs acc : List PushRec) (warns : List String),
      parseAll lines = some recs →
      processPushLines repoNodes lines acc warns =
        (if recs.all (recResolvable repoNodes) then
          .ok (acc.reverse ++ recs, warns)
        else
          .ok (acc.reverse ++ recs.takeWhile (recResolvable repoNodes),
               warns ++ [unknownChangesetWarning])) := by
  intro lines
  induction lines with
  | nil =>
    intro recs acc warns h
    rw [show parseAll [] = some [] from rfl, Option.some.injEq] at h
    subst h
    simp [processPushLines]
  | cons line rest ih =>
    intro recs acc warns h
    unfold parseAll at h
    split at h
    · rename_i r rs hp hrest
      rw [Option.some.injEq] at h
      subst h
      rw [processPushLines_cons_of_parse repoNodes line rest r acc warns hp]
      by_cases hr : recResolvable repoNodes r = true
      · rw [if_pos hr, ih rs (r :: acc) warns hrest]
        by_cases hall : rs.all (recResolvable repoNodes) = true
        · rw [if_pos hall, if_pos (by simp [List.all_cons, hr, hall])]
          simp
        · rw [if_neg hall,
            if_neg (show ¬ ((r :: rs).all (recResolvable repoNodes) = true) from by
              simp [List.all_cons, hall])]
          simp [List.takeWhile_cons, hr, List.reverse_cons, List.append_assoc]
      · rw [if_neg hr]
        rw [Bool.not_eq_true] at hr
        rw [if_neg (show ¬ ((r :: rs).all (recResolvable repoNodes) = true) from by
          simp [List.all_cons, hr])]
        simp [List.takeWhile_cons, hr]
    · cases h

theorem parseAll_split (lines : List String) (r1 r2 : List PushRec)
    (h : parseAll lines = some (r1 ++ r2)) :
    ∃ l1 l2, lines = l1 ++ l2 ∧ parseAll l1 = some r1 ∧ parseAll l2 = some r2 := by
  induction r1 generalizing lines with
  | nil => exact ⟨[], lines, rfl, rfl, h⟩
  | cons r rs ih =>
    cases lines with
    | nil => rw [show parseAll [] = some [] from rfl] at h; cases h
    | cons a as =>
      unfold parseAll at h
      split at h
      · rename_i r' rs' hp hrest
        rw [List.cons_append, Option.some.injEq, List.cons.injEq] at h
        obtain ⟨rfl, rfl⟩ := h
        obtain ⟨l1, l2, rfl, hl1, hl2⟩ := ih as hrest
        refine ⟨a :: l1, l2, rfl, ?_, hl2⟩
        unfold parseAll
        rw [hp, hl1]
      · cases h

/-! ## The sync driver, characterized -/

theorem exchangepullpushlog_qualified (op : PullOp) (tracker : ChangeTracker)
    (repoNodes : List String) (remote : Nat → List String) (tree : String)
    (hcap : op.capablePushlog = true) (htree : op.tree = some tree)
    (hct : op.hasChangetracker = true) (htry : tree ≠ "try")
    (hssh : op.isSsh = false) :
    exchangepullpushlog op tracker repoNodes remote
      = fetchAndIngest tree tracker repoNodes remote := by
  unfold exchangepullpushlog
  rw [hcap, htree, hct, hssh]
  simp [htry]

/-- A fully verified response is stored whole: one `add_pushes` call when the
batch is non-empty, none when it is empty. -/
theorem fetchAndIngest_ok (tree : String) (tracker : ChangeTracker)
    (repoNodes : List String) (remote : Nat → List String)
    (lines : List String) (recs : List PushRec)
    (hr : remote (fetchFrom tracker tree) = "1" :: lines)
    (hp : parseAll lines = some recs)
    (hok : recs.all (recResolvable repoNodes) = true) :
    fetchAndIngest tree tracker repoNodes remote
      = (if recs.isEmpty then .ok ⟨tracker, [], [], []⟩
        else .ok ⟨add_pushes tracker tree recs, [(tree, recs)], [],
               ["added " ++ toString recs.length ++ " pushes\n"]⟩) := by
  unfold fetchAndIngest
  rw [hr]
  dsimp only
  rw [if_neg (by decide), if_neg (by simp)]
  rw [processPushLines_eq repoNodes lines recs [] [] hp, if_pos hok]
  simp only [List.reverse_nil, List.nil_append]

theorem filter_tag (tree : String) (recs : List PushRec) :
    (recs.map (fun r => (tree, r))).filter (fun p => p.1 = tree)
      = recs.map (fun r => (tree, r)) := by
  induction recs with
  | nil => rfl
  | cons r rs ih => simp [List.filter_cons, ih]

/-- After storing a non-empty batch, the next sync's `fetchfrom` is one past
the batch's last push id. -/
theorem fetchFrom_add_pushes (t0 : ChangeTracker) (tree : String)
    (recs : List PushRec) (rlast : PushRec) (h : recs.getLast? = some rlast) :
    fetchFrom (add_pushes t0 tree recs) tree = rlast.pushid + 1 := by
  unfold fetchFrom last_push_id add_pushes
  simp only [List.filter_append, filter_tag, List.map_append, List.map_map,
    List.getLast?_append, List.getLast?_map]
  rw [h]
  rfl

theorem mem_of_getLast?_eq {α : Type} :
    ∀ (l : List α) (x : α), l.getLast? = some x → x ∈ l := by
  intro l
  induction l with
  | nil => intro x h; cases h
  | cons a as ih =>
    intro x h
    cases as with
    | nil =>
      rw [show ([a] : List α).getLast? = some a from rfl, Option.some.injEq] at h
      subst h; exact List.mem_singleton_self a
    | cons b bs =>
      rw [List.getLast?_cons_cons] at h
      exact List.mem_cons_of_mem a (ih x h)

theorem le_getLast_of_pairwise_lt :
    ∀ (l : List Nat) (x : Nat), l.Pairwise (· < ·) → l.getLast? = some x →
      ∀ a ∈ l, a ≤ x := by
  intro l
  induction l with
  | nil => simp
  | cons b bs ih =>
    intro x hp hl a ha
    rcases List.mem_cons.1 ha with rfl | ha
    · cases bs with
      | nil =>
        rw [show ([a] : List Nat).getLast? = some a from rfl,
          Option.some.injEq] at hl
        omega
      | cons c cs =>
        rw [List.getLast?_cons_cons] at hl
        have hx : x ∈ c :: cs := mem_of_getLast?_eq _ x hl
        exact le_of_lt ((List.pairwise_cons.1 hp).1 x hx)
    · cases bs with
      | nil => cases ha
      | cons c cs =>
        rw [List.getLast?_cons_cons] at hl
        exact ih x (List.pairwise_cons.1 hp).2 hl a ha

/-! ## C2: partial-batch acceptance at the first unresolvable changeset -/

/-- C2 counterexample: when the FIRST record of the response references an
unknown changeset (`k = 1`), the verified prefix is empty and the code makes
no `add_pushes` call at all — not "a single add_pushes call" as claimed. -/
theorem c2_first_record_unknown_counterexample :
    (exchangepullpushlog ⟨true, some "central", true, false⟩ ⟨[]⟩ []
        (fun _ => ["1", "1 alice 1000 ffff"])).map
      (fun e => e.addPushesCalls.length) = Except.ok 0 := rfl

/-- C2 amended: when the k-th record is the first to reference an
unresolvable changeset, sync stores exactly the first k-1 records (the
verified prefix), raises no error and only warns; the prefix is stored via a
single `add_pushes` call when k ≥ 2, and via no call at all when k = 1. -/
theorem c2_partial_batch (op : PullOp) (tracker : ChangeTracker)
    (repoNodes : List String) (remote : Nat → List String) (tree : String)
    (lines : List String) (pre : List PushRec) (bad : PushRec)
    (post : List PushRec)
    (hcap : op.capablePushlog = true) (htree : op.tree = some tree)
    (hct : op.hasChangetracker = true) (htry : tree ≠ "try")
    (hssh : op.isSsh = false)
    (hr : remote (fetchFrom tracker tree) = "1" :: lines)
    (hp : parseAll lines = some (pre ++ bad :: post))
    (hpre : pre.all (recResolvable repoNodes) = true)
    (hbad : recResolvable repoNodes bad = false) :
    exchangepullpushlog op tracker repoNodes remote
      = .ok ⟨(if pre.isEmpty then tracker else add_pushes tracker tree pre),
             (if pre.isEmpty then [] else [(tree, pre)]),
             [unknownChangesetWarning],
             (if pre.isEmpty then []
              else ["added " ++ toString pre.length ++ " pushes\n"])⟩ := by
  rw [exchangepullpushlog_qualified op tracker repoNodes remote tree
    hcap htree hct htry hssh]
  unfold fetchAndIngest
  rw [hr]
  dsimp only
  rw [if_neg (by decide), if_neg (by simp)]
  rw [processPushLines_eq repoNodes lines (pre ++ bad :: post) [] [] hp]
  rw [if_neg (show ¬ ((pre ++ bad :: post).all (recResolvable repoNodes) = true)
    from by
      intro hall
      rw [List.all_eq_true] at hall
      have := hall bad (by simp)
      rw [hbad] at this
      cases this)]
  rw [takeWhile_split (recResolvable repoNodes) pre bad post hpre hbad]
  dsimp only
  simp only [List.reverse_nil, List.nil_append]
  by_cases hpe : pre.isEmpty = true
  · simp only [if_pos hpe]
  · simp only [if_neg hpe]

/-- C2 witness: the spec's own partial-batch scenario — the third record
references the unknown changeset `ffff`, so exactly the first two records are
stored, through one `add_pushes` call, with only a warning. -/
theorem c2_partial_batch_witness :
    exchangepullpushlog ⟨true, some "central", true, false⟩ ⟨[]⟩
        ["aaaa", "bbbb", "cccc"]
        (fun _ => ["1", "5 alice 1000 aaaa", "6 bob 1100 bbbb cccc",
                   "7 carol 1200 ffff"])
      = .ok ⟨add_pushes ⟨[]⟩ "central"
               [⟨5, "alice", 1000, ["aaaa"]⟩, ⟨6, "bob", 1100, ["bbbb", "cccc"]⟩],
             [("central",
               [⟨5, "alice", 1000, ["aaaa"]⟩,
                ⟨6, "bob", 1100, ["bbbb", "cccc"]⟩])],
             [unknownChangesetWarning], ["added 2 pushes\n"]⟩ :=
  c2_partial_batch ⟨true, some "central", true, false⟩ ⟨[]⟩
    ["aaaa", "bbbb", "cccc"]
    (fun _ => ["1", "5 alice 1000 aaaa", "6 bob 1100 bbbb cccc",
               "7 carol 1200 ffff"])
    "central"
    ["5 alice 1000 aaaa", "6 bob 1100 bbbb cccc", "7 carol 1200 ffff"]
    [⟨5, "alice", 1000, ["aaaa"]⟩, ⟨6, "bob", 1100, ["bbbb", "cccc"]⟩]
    ⟨7, "carol", 1200, ["ffff"]⟩ []
    rfl rfl rfl (by decide) rfl rfl rfl rfl rfl

/-! ## C3: firstpush computation and resumability -/

/-- C3: every sync requests `firstpush = last_push_id(tree) + 1` when a push
is stored and `0` when none is; and two consecutive syncs against a remote
returning strictly increasing push ids neither duplicate nor lose a push —
the second sync's `fetchfrom` is one past the last push id the first stored,
and the store ends holding the old rows followed by exactly the two fetched
batches, with strictly increasing ids across both. -/
theorem c3_sync_resumable (op : PullOp) (t0 : ChangeTracker)
    (repoNodes : List String) (remote : Nat → List String) (tree : String)
    (lines1 lines2 : List String) (recs1 recs2 : List PushRec)
    (rlast : PushRec)
    (hcap : op.capablePushlog = true) (htree : op.tree = some tree)
    (hct : op.hasChangetracker = true) (htry : tree ≠ "try")
    (hssh : op.isSsh = false)
    (hr1 : remote (fetchFrom t0 tree) = "1" :: lines1)
    (hp1 : parseAll lines1 = some recs1)
    (hok1 : recs1.all (recResolvable repoNodes) = true)
    (hlast : recs1.getLast? = some rlast)
    (hr2 : remote (rlast.pushid + 1) = "1" :: lines2)
    (hp2 : parseAll lines2 = some recs2)
    (hok2 : recs2.all (recResolvable repoNodes) = true)
    (hinc1 : (recs1.map PushRec.pushid).Pairwise (· < ·))
    (hinc2 : (recs2.map PushRec.pushid).Pairwise (· < ·))
    (hge : ∀ r ∈ recs2, rlast.pushid + 1 ≤ r.pushid) :
    (∀ l, last_push_id t0 tree = some l → fetchFrom t0 tree = l + 1) ∧
    (last_push_id t0 tree = none → fetchFrom t0 tree = 0) ∧
    exchangepullpushlog op t0 repoNodes remote
      = .ok ⟨add_pushes t0 tree recs1, [(tree, recs1)], [],
             ["added " ++ toString recs1.length ++ " pushes\n"]⟩ ∧
    fetchFrom (add_pushes t0 tree recs1) tree = rlast.pushid + 1 ∧
    (exchangepullpushlog op (add_pushes t0 tree recs1) repoNodes remote).map
        (fun e => e.store.pushes)
      = .ok (t0.pushes ++ recs1.map (fun r => (tree, r))
          ++ recs2.map (fun r => (tree, r))) ∧
    ((recs1 ++ recs2).map PushRec.pushid).Pairwise (· < ·) := by
  have hne1 : recs1 ≠ [] := by
    intro h; rw [h] at hlast; cases hlast
  have hrun1 : exchangepullpushlog op t0 repoNodes remote
      = .ok ⟨add_pushes t0 tree recs1, [(tree, recs1)], [],
             ["added " ++ toString recs1.length ++ " pushes\n"]⟩ := by
    rw [exchangepullpushlog_qualified op t0 repoNodes remote tree
      hcap htree hct htry hssh]
    rw [fetchAndIngest_ok tree t0 repoNodes remote lines1 recs1 hr1 hp1 hok1]
    rw [if_neg (show ¬ recs1.isEmpty = true from fun h =>
      hne1 (List.isEmpty_iff.1 h))]
  have hff2 : fetchFrom (add_pushes t0 tree recs1) tree = rlast.pushid + 1 :=
    fetchFrom_add_pushes t0 tree recs1 rlast hlast
  refine ⟨?_, ?_, hrun1, hff2, ?_, ?_⟩
  · intro l hl; unfold fetchFrom; rw [hl]
  · intro hl; unfold fetchFrom; rw [hl]
  · rw [exchangepullpushlog_qualified op _ repoNodes remote tree
      hcap htree hct htry hssh]
    rw [fetchAndIngest_ok tree _ repoNodes remote lines2 recs2
      (by rw [hff2]; exact hr2) hp2 hok2]
    by_cases h2 : recs2.isEmpty = true
    · rw [if_pos h2]
      rw [List.isEmpty_iff] at h2
      subst h2
      simp only [add_pushes, List.map_nil, List.append_nil]
      rfl
    · rw [if_neg h2]
      simp only [add_pushes, List.append_assoc]
      rfl
  · rw [List.map_append, List.pairwise_append]
    refine ⟨hinc1, hinc2, ?_⟩
    intro a ha b hb
    obtain ⟨r1, hr1m, rfl⟩ := List.mem_map.1 ha
    obtain ⟨r2, hr2m, rfl⟩ := List.mem_map.1 hb
    have h1 : r1.pushid ≤ rlast.pushid := by
      have := le_getLast_of_pairwise_lt (recs1.map PushRec.pushid)
        rlast.pushid hinc1 (by rw [List.getLast?_map, hlast]; rfl)
      exact this r1.pushid (List.mem_map_of_mem PushRec.pushid hr1m)
    have h2 := hge r2 hr2m
    omega

/-- C3 witness: an empty store, a first response carrying pushes 5 and 6 and
a second (requested at firstpush 7) carrying push 7: the first sync stores
pushes 5-6, the second resumes at 7, and the final store holds 5, 6, 7. -/
theorem c3_sync_resumable_witness :
    (∀ l, last_push_id ⟨[]⟩ "central" = some l
      → fetchFrom ⟨[]⟩ "central" = l + 1) ∧
    (last_push_id ⟨[]⟩ "central" = none → fetchFrom ⟨[]⟩ "central" = 0) ∧
    exchangepullpushlog ⟨true, some "central", true, false⟩ ⟨[]⟩
        ["aaaa", "bbbb", "cccc", "dddd"]
        (fun fp => if fp = 0
          then ["1", "5 alice 1000 aaaa", "6 bob 1100 bbbb cccc"]
          else if fp = 7 then ["1", "7 carol 1200 dddd"] else ["1"])
      = .ok ⟨add_pushes ⟨[]⟩ "central"
               [⟨5, "alice", 1000, ["aaaa"]⟩, ⟨6, "bob", 1100, ["bbbb", "cccc"]⟩],
             [("central",
               [⟨5, "alice", 1000, ["aaaa"]⟩,
                ⟨6, "bob", 1100, ["bbbb", "cccc"]⟩])],
             [], ["added 2 pushes\n"]⟩ ∧
    fetchFrom (add_pushes ⟨[]⟩ "central"
        [⟨5, "alice", 1000, ["aaaa"]⟩, ⟨6, "bob", 1100, ["bbbb", "cccc"]⟩])
        "central" = 7 ∧
    (exchangepullpushlog ⟨true, some "central", true, false⟩
        (add_pushes ⟨[]⟩ "central"
          [⟨5, "alice", 1000, ["aaaa"]⟩, ⟨6, "bob", 1100, ["bbbb", "cccc"]⟩])
        ["aaaa", "bbbb", "cccc", "dddd"]
        (fun fp => if fp = 0
          then ["1", "5 alice 1000 aaaa", "6 bob 1100 bbbb cccc"]
          else if fp = 7 then ["1", "7 carol 1200 dddd"] else ["1"])).map
        (fun e => e.store.pushes)
      = .ok (([] : List (String × PushRec))
          ++ [⟨5, "alice", 1000, ["aaaa"]⟩,
              ⟨6, "bob", 1100, ["bbbb", "cccc"]⟩].map
                (fun r => ("central", r))
          ++ [⟨7, "carol", 1200, ["dddd"]⟩].map (fun r => ("central", r))) ∧
    ((([⟨5, "alice", 1000, ["aaaa"]⟩, ⟨6, "bob", 1100, ["bbbb", "cccc"]⟩]
          : List PushRec)
        ++ ([⟨7, "carol", 1200, ["dddd"]⟩] : List PushRec)).map
          PushRec.pushid).Pairwise (· < ·) :=
  c3_sync_resumable ⟨true, some "central", true, false⟩ ⟨[]⟩
    ["aaaa", "bbbb", "cccc", "dddd"]
    (fun fp => if fp = 0
      then ["1", "5 alice 1000 aaaa", "6 bob 1100 bbbb cccc"]
      else if fp = 7 then ["1", "7 carol 1200 dddd"] else ["1"])
    "central"
    ["5 alice 1000 aaaa", "6 bob 1100 bbbb cccc"] ["7 carol 1200 dddd"]
    ([⟨5, "alice", 1000, ["aaaa"]⟩, ⟨6, "bob", 1100, ["bbbb", "cccc"]⟩]
      : List PushRec)
    ([⟨7, "carol", 1200, ["dddd"]⟩] : List PushRec)
    (⟨6, "bob", 1100, ["bbbb", "cccc"]⟩ : PushRec)
    rfl rfl rfl (by decide) rfl rfl rfl rfl rfl rfl rfl rfl
    (by decide) (by decide) (by decide)

/-- Shared: a failure status line (first character `0`) raises the abort
error carrying the next line. -/
theorem exchangepullpushlog_failure_status (op : PullOp)
    (tracker : ChangeTracker) (repoNodes : List String)
    (remote : Nat → List String) (tree statusline msg : String)
    (cs : List Char) (rest : List String)
    (hcap : op.capablePushlog = true) (htree : op.tree = some tree)
    (hct : op.hasChangetracker = true) (htry : tree ≠ "try")
    (hssh : op.isSsh = false)
    (hr : remote (fetchFrom tracker tree) = statusline :: msg :: rest)
    (hstat : statusline.data = '0' :: cs) :
    exchangepullpushlog op tracker repoNodes remote
      = .error ("remote error fetching pushlog: " ++ msg) := by
  rw [exchangepullpushlog_qualified op tracker repoNodes remote tree
    hcap htree hct htry hssh]
  unfold fetchAndIngest
  rw [hr]
  dsimp only
  rw [hstat]
  dsimp only
  rw [if_pos rfl]

/-! ## C4: failure semantics of the automatic post-pull trigger -/

/-- C4 counterexample: an automatic post-pull sync whose fetch response has
failure status raises an abort error — it is not reduced to a warning, so the
triggering pull fails. -/
theorem c4_failure_status_fails_pull_counterexample :
    exchangepullpushlog ⟨true, some "central", true, false⟩ ⟨[]⟩ []
        (fun _ => ["0", "busted"])
      = .error "remote error fetching pushlog: busted" := rfl

/-- C4 amended: in the automatic post-pull trigger a failure status in the
fetch response raises an abort error that propagates out of the pull; only
the ssh-transport limitation (and, per C2, an unknown changeset) is
warning-only. -/
theorem c4_auto_trigger_failure_semantics (op : PullOp)
    (tracker : ChangeTracker) (repoNodes : List String)
    (remote : Nat → List String) (tree statusline msg : String)
    (cs : List Char) (rest : List String)
    (hcap : op.capablePushlog = true) (htree : op.tree = some tree)
    (hct : op.hasChangetracker = true) (htry : tree ≠ "try")
    (hssh : op.isSsh = false)
    (hr : remote (fetchFrom tracker tree) = statusline :: msg :: rest)
    (hstat : statusline.data = '0' :: cs) :
    exchangepullpushlog op tracker repoNodes remote
      = .error ("remote error fetching pushlog: " ++ msg) ∧
    exchangepullpushlog ⟨op.capablePushlog, op.tree, op.hasChangetracker, true⟩
        tracker repoNodes remote
      = .ok ⟨tracker, [], [sshWarning], []⟩ := by
  constructor
  · exact exchangepullpushlog_failure_status op tracker repoNodes remote tree
      statusline msg cs rest hcap htree hct htry hssh hr hstat
  · unfold exchangepullpushlog
    rw [hcap, htree, hct]
    simp [htry]

/-- C4 witness: a concrete failure-status response with message `busted`
makes the automatic trigger raise, while the same pull over ssh only
warns. -/
theorem c4_auto_trigger_failure_semantics_witness :
    exchangepullpushlog ⟨true, some "central", true, false⟩ ⟨[]⟩ []
        (fun _ => ["0", "busted\x21"])
      = .error "remote error fetching pushlog: busted\x21" ∧
    exchangepullpushlog ⟨true, some "central", true, true⟩ ⟨[]⟩ []
        (fun _ => ["0", "busted\x21"])
      = .ok ⟨⟨[]⟩, [], [sshWarning], []⟩ :=
  c4_auto_trigger_failure_semantics ⟨true, some "central", true, false⟩
    ⟨[]⟩ [] (fun _ => ["0", "busted\x21"]) "central" "0" "busted\x21" [] []
    rfl rfl rfl (by decide) rfl rfl rfl

/-! ## C6: what the raised protocol error carries -/

/-- C6 counterexample: a response whose first line is the token `2` (not
`1`, and not starting with `0`) raises an error carrying the status line
itself, not the remote-supplied message on the next line. -/
theorem c6_non_zero_token_counterexample :
    exchangepullpushlog ⟨true, some "central", true, false⟩ ⟨[]⟩ []
        (fun _ => ["2", "the message"])
      = .error "error fetching pushlog: unexpected response: 2\n" ∧
    "error fetching pushlog: unexpected response: 2\n"
      ≠ "remote error fetching pushlog: the message" := by
  exact ⟨rfl, by decide⟩

/-- C6 amended: a first line whose first character is `0` raises an error
carrying the failure message found on the next line; any other first line
that is not exactly `1` raises an "unexpected response" error carrying the
status line itself. -/
theorem c6_status_line_error_payloads (op : PullOp)
    (tracker : ChangeTracker) (repoNodes : List String)
    (remote : Nat → List String) (tree statusline : String)
    (rest : List String)
    (hcap : op.capablePushlog = true) (htree : op.tree = some tree)
    (hct : op.hasChangetracker = true) (htry : tree ≠ "try")
    (hssh : op.isSsh = false)
    (hr : remote (fetchFrom tracker tree) = statusline :: rest) :
    (∀ cs msg more, statusline.data = '0' :: cs → rest = msg :: more →
      exchangepullpushlog op tracker repoNodes remote
        = .error ("remote error fetching pushlog: " ++ msg)) ∧
    (∀ c cs, statusline.data = c :: cs → c ≠ '0' → statusline ≠ "1" →
      exchangepullpushlog op tracker repoNodes remote
        = .error ("error fetching pushlog: unexpected response: "
            ++ statusline ++ "\n")) := by
  constructor
  · intro cs msg more hstat hrest
    subst hrest
    exact exchangepullpushlog_failure_status op tracker repoNodes remote tree
      statusline msg cs more hcap htree hct htry hssh hr hstat
  · intro c cs hstat hc hs1
    rw [exchangepullpushlog_qualified op tracker repoNodes remote tree
      hcap htree hct htry hssh]
    unfold fetchAndIngest
    rw [hr]
    dsimp only
    rw [hstat]
    dsimp only
    rw [if_neg hc, if_pos hs1]

/-- C6 witness: at the concrete responses `["0cafe", "oops"]` and
`["2", "zap"]` the two error payloads are as amended. -/
theorem c6_status_line_error_payloads_witness :
    (∀ cs msg more, ("0cafe" : String).data = '0' :: cs
      → (["oops"] : List String) = msg :: more →
      exchangepullpushlog ⟨true, some "central", true, false⟩ ⟨[]⟩ []
          (fun _ => ["0cafe", "oops"])
        = .error ("remote error fetching pushlog: " ++ msg)) ∧
    (∀ c cs, ("0cafe" : String).data = c :: cs → c ≠ '0'
      → ("0cafe" : String) ≠ "1" →
      exchangepullpushlog ⟨true, some "central", true, false⟩ ⟨[]⟩ []
          (fun _ => ["0cafe", "oops"])
        = .error ("error fetching pushlog: unexpected response: "
            ++ "0cafe" ++ "\n")) :=
  c6_status_line_error_payloads ⟨true, some "central", true, false⟩ ⟨[]⟩ []
    (fun _ => ["0cafe", "oops"]) "central" "0cafe" ["oops"]
    rfl rfl rfl (by decide) rfl rfl

/-! ## C7: the `pushhead` revset predicate -/

theorem pairwise_lt_of_le_nodup (l : List Nat) (h1 : l.Pairwise (· ≤ ·))
    (h2 : l.Nodup) : l.Pairwise (· < ·) :=
  (h1.and h2).imp (fun h => lt_of_le_of_ne h.1 h.2)

/-- Dropping unresolvable heads preserves any pairwise relation on the
push ids. -/
theorem pairwise_fst_filterMap_resolve (revOf : String → Option Nat)
    (R : Nat → Nat → Prop) :
    ∀ (l : List (Nat × String)), (l.map Prod.fst).Pairwise R →
      ((l.filterMap (fun e => (revOf e.2).map (fun r => (e.1, r)))).map
        Prod.fst).Pairwise R := by
  intro l
  induction l with
  | nil => intro h; simp
  | cons e es ih =>
    intro h
    rw [List.map_cons, List.pairwise_cons] at h
    rw [List.filterMap_cons]
    cases hre : revOf e.2 with
    | none => exact ih h.2
    | some r =>
      rw [Option.map_some']
      rw [List.map_cons, List.pairwise_cons]
      refine ⟨?_, ih h.2⟩
      intro b hb
      obtain ⟨⟨pid, rv⟩, hmem, heq⟩ := List.mem_map.1 hb
      obtain ⟨e', hmem', hfe⟩ := List.mem_filterMap.1 hmem
      cases h2 : revOf e'.2 with
      | none => rw [h2] at hfe; cases hfe
      | some rr =>
        rw [h2, Option.map_some', Option.some.injEq, Prod.mk.injEq] at hfe
        have hpid : e'.1 = pid := hfe.1
        have : b = pid := heq ▸ rfl
        subst this
        rw [← hpid]
        exact h.1 e'.1 (List.mem_map_of_mem Prod.fst hmem')

theorem mem_tree_push_head_changesets (t : ChangeTracker) (tree : String)
    (pid : Nat) (h : String) :
    (pid, h) ∈ tree_push_head_changesets t tree ↔
      ∃ p ∈ t.pushes, p.1 = tree ∧ p.2.pushid = pid ∧ p.2.headNode = h := by
  unfold tree_push_head_changesets sortByNatKey
  rw [List.mem_map]
  constructor
  · rintro ⟨p, hp, heq⟩
    rw [mem_sortLe] at hp
    rw [List.mem_filter, decide_eq_true_eq] at hp
    rw [Prod.mk.injEq] at heq
    exact ⟨p, hp.1, hp.2, heq.1, heq.2⟩
  · rintro ⟨p, hp, htree, hpid, hhead⟩
    refine ⟨p, ?_, by rw [hpid, hhead]⟩
    rw [mem_sortLe, List.mem_filter, decide_eq_true_eq]
    exact ⟨hp, htree⟩

theorem mem_pushheadPairs (revOf : String → Option Nat) (t : ChangeTracker)
    (tree : String) (pid r : Nat) :
    (pid, r) ∈ pushheadPairs revOf t tree ↔
      ∃ h, (pid, h) ∈ tree_push_head_changesets t tree ∧ revOf h = some r := by
  unfold pushheadPairs
  rw [List.mem_filterMap]
  constructor
  · rintro ⟨⟨pid', h⟩, hmem, hf⟩
    cases h2 : revOf h with
    | none => rw [h2] at hf; cases hf
    | some rr =>
      rw [h2, Option.map_some', Option.some.injEq, Prod.mk.injEq] at hf
      obtain ⟨rfl, rfl⟩ := hf
      exact ⟨h, hmem, h2⟩
  · rintro ⟨h, hmem, hf⟩
    exact ⟨(pid, h), hmem, by rw [hf]; rfl⟩

/-- C7: with a tree argument `pushhead(T)` yields exactly the stored push
heads of `T` that resolve locally (unresolvable heads silently skipped),
following strictly ascending push-id order from the store; with no argument
it filters the subset to changesets heading some recorded push on any
tree. -/
theorem c7_pushhead_semantics (revOf : String → Option Nat)
    (nodeOf : Nat → String) (t : ChangeTracker) (tree : String)
    (subset : List Nat)
    (hnodup : ((t.pushes.filter (fun p => p.1 = tree)).map
      (fun p => p.2.pushid)).Nodup) :
    (∀ r, r ∈ revset_pushhead_tree revOf t tree subset ↔
      r ∈ subset ∧ ∃ pid, (pid, r) ∈ pushheadPairs revOf t tree) ∧
    ((pushheadPairs revOf t tree).map Prod.fst).Pairwise (· < ·) ∧
    (∀ pid r, (pid, r) ∈ pushheadPairs revOf t tree ↔
      ∃ h, (pid, h) ∈ tree_push_head_changesets t tree ∧ revOf h = some r) ∧
    (∀ r, r ∈ revset_pushhead_noarg nodeOf t subset ↔
      r ∈ subset ∧ ∃ p ∈ t.pushes, nodeOf r ∈ p.2.nodes
        ∧ p.2.headNode = nodeOf r) := by
  refine ⟨?_, ?_, mem_pushheadPairs revOf t tree, ?_⟩
  · intro r
    unfold revset_pushhead_tree
    rw [List.mem_filter, List.mem_map]
    constructor
    · rintro ⟨⟨⟨pid, rv⟩, hmem, heq⟩, hsub⟩
      subst heq
      exact ⟨by simpa using hsub, pid, hmem⟩
    · rintro ⟨hsub, pid, hmem⟩
      exact ⟨⟨(pid, r), hmem, rfl⟩, by simpa using hsub⟩
  · have hsorted : ((sortByNatKey (fun p : String × PushRec => p.2.pushid)
        (t.pushes.filter (fun p => p.1 = tree))).map
          (fun p => p.2.pushid)).Pairwise (· ≤ ·) := by
      rw [List.pairwise_map]
      exact sortByNatKey_pairwise
        (fun p : String × PushRec => p.2.pushid) _
    have hperm : ((sortByNatKey (fun p : String × PushRec => p.2.pushid)
        (t.pushes.filter (fun p => p.1 = tree))).map
          (fun p => p.2.pushid)).Perm
        ((t.pushes.filter (fun p => p.1 = tree)).map
          (fun p => p.2.pushid)) :=
      (sortLe_perm _ _).map _
    have hlt := pairwise_lt_of_le_nodup _ hsorted
      (hperm.nodup_iff.2 hnodup)
    unfold pushheadPairs
    apply pairwise_fst_filterMap_resolve
    unfold tree_push_head_changesets
    rw [List.map_map]
    exact hlt
  · intro r
    unfold revset_pushhead_noarg
    rw [List.mem_filter, List.any_eq_true]
    constructor
    · rintro ⟨hsub, p, hp, hhead⟩
      rw [pushes_for_changeset, List.mem_filter, decide_eq_true_eq] at hp
      exact ⟨hsub, p, hp.1, hp.2, of_decide_eq_true hhead⟩
    · rintro ⟨hsub, p, hp, hnodes, hhead⟩
      refine ⟨hsub, p, ?_, decide_eq_true hhead⟩
      rw [pushes_for_changeset, List.mem_filter, decide_eq_true_eq]
      exact ⟨hp, hnodes⟩

/-- C7 witness: a store holding pushes 6 and 5 for `central` (inserted out
of order) and one push for `inbound`; head `cccc` resolves to revision 2,
`aaaa` to 0, and the push-5's head resolves while push-6's resolves too,
with `inbound`'s head unresolvable. -/
theorem c7_pushhead_semantics_witness :
    (∀ r, r ∈ revset_pushhead_tree
        (fun h => if h = "aaaa" then some 0
          else if h = "cccc" then some 2 else none)
        ⟨[("central", ⟨6, "bob", 1100, ["bbbb", "cccc"]⟩),
          ("central", ⟨5, "alice", 1000, ["aaaa"]⟩),
          ("inbound", ⟨1, "zed", 900, ["zzzz"]⟩)]⟩ "central" [0, 1, 2] ↔
      r ∈ [0, 1, 2] ∧ ∃ pid, (pid, r) ∈ pushheadPairs
        (fun h => if h = "aaaa" then some 0
          else if h = "cccc" then some 2 else none)
        ⟨[("central", ⟨6, "bob", 1100, ["bbbb", "cccc"]⟩),
          ("central", ⟨5, "alice", 1000, ["aaaa"]⟩),
          ("inbound", ⟨1, "zed", 900, ["zzzz"]⟩)]⟩ "central") ∧
    ((pushheadPairs
        (fun h => if h = "aaaa" then some 0
          else if h = "cccc" then some 2 else none)
        ⟨[("central", ⟨6, "bob", 1100, ["bbbb", "cccc"]⟩),
          ("central", ⟨5, "alice", 1000, ["aaaa"]⟩),
          ("inbound", ⟨1, "zed", 900, ["zzzz"]⟩)]⟩ "central").map
      Prod.fst).Pairwise (· < ·) ∧
    (∀ pid r, (pid, r) ∈ pushheadPairs
        (fun h => if h = "aaaa" then some 0
          else if h = "cccc" then some 2 else none)
        ⟨[("central", ⟨6, "bob", 1100, ["bbbb", "cccc"]⟩),
          ("central", ⟨5, "alice", 1000, ["aaaa"]⟩),
          ("inbound", ⟨1, "zed", 900, ["zzzz"]⟩)]⟩ "central" ↔
      ∃ h, (pid, h) ∈ tree_push_head_changesets
        ⟨[("central", ⟨6, "bob", 1100, ["bbbb", "cccc"]⟩),
          ("central", ⟨5, "alice", 1000, ["aaaa"]⟩),
          ("inbound", ⟨1, "zed", 900, ["zzzz"]⟩)]⟩ "central" ∧
        (if h = "aaaa" then some 0
          else if h = "cccc" then some 2 else none) = some r) ∧
    (∀ r, r ∈ revset_pushhead_noarg
        (fun r => if r = 0 then "aaaa" else if r = 2 then "cccc" else "xxxx")
        ⟨[("central", ⟨6, "bob", 1100, ["bbbb", "cccc"]⟩),
          ("central", ⟨5, "alice", 1000, ["aaaa"]⟩),
          ("inbound", ⟨1, "zed", 900, ["zzzz"]⟩)]⟩ [0, 1, 2] ↔
      r ∈ [0, 1, 2] ∧
        ∃ p ∈ [("central", (⟨6, "bob", 1100, ["bbbb", "cccc"]⟩ : PushRec)),
               ("central", ⟨5, "alice", 1000, ["aaaa"]⟩),
               ("inbound", ⟨1, "zed", 900, ["zzzz"]⟩)],
          (if r = 0 then "aaaa" else if r = 2 then "cccc" else "xxxx")
              ∈ p.2.nodes
            ∧ p.2.headNode
              = (if r = 0 then "aaaa"
                else if r = 2 then "cccc" else "xxxx")) :=
  c7_pushhead_semantics
    (fun h => if h = "aaaa" then some 0
      else if h = "cccc" then some 2 else none)
    (fun r => if r = 0 then "aaaa" else if r = 2 then "cccc" else "xxxx")
    ⟨[("central", ⟨6, "bob", 1100, ["bbbb", "cccc"]⟩),
      ("central", ⟨5, "alice", 1000, ["aaaa"]⟩),
      ("inbound", ⟨1, "zed", 900, ["zzzz"]⟩)]⟩ "central" [0, 1, 2]
    (by decide)

/-! ## C8: remote-ref reconciliation -/

theorem lookupRef_filter_ne (refs : List (String × String)) (k k' : String)
    (h : ¬ k' = k) :
    lookupRef (refs.filter (fun p => ¬ p.1 = k)) k' = lookupRef refs k' := by
  induction refs with
  | nil => rfl
  | cons p ps ih =>
    rw [List.filter_cons]
    by_cases hk : p.1 = k
    · rw [if_neg (by simp [hk])]
      rw [ih]
      unfold lookupRef
      rw [List.find?_cons]
      have : (decide (p.1 = k')) = false := by
        simp only [decide_eq_false_iff_not]
        intro hc; exact h (hc ▸ hk)
      rw [this]
    · rw [if_pos (by simp [hk])]
      unfold lookupRef
      rw [List.find?_cons, List.find?_cons]
      by_cases hpk : p.1 = k'
      · rw [show (decide (p.1 = k')) = true from decide_eq_true hpk]
      · rw [show (decide (p.1 = k')) = false from by simp [hpk]]
        unfold lookupRef at ih
        exact ih

theorem lookupRef_setRef (refs : List (String × String)) (k v k' : String) :
    lookupRef (setRef refs k v) k'
      = if k' = k then some v else lookupRef refs k' := by
  unfold setRef
  by_cases h : k' = k
  · subst h
    unfold lookupRef
    rw [List.find?_cons]
    simp
  · rw [if_neg h]
    unfold lookupRef
    rw [List.find?_cons]
    have : (decide ((k, v).1 = k')) = false := by
      simp only [decide_eq_false_iff_not]
      intro hc; exact h hc.symm
    rw [this]
    exact lookupRef_filter_ne refs k k' h

theorem lookupRef_delRef (refs : List (String × String)) (k k' : String) :
    lookupRef (delRef refs k) k'
      = if k' = k then none else lookupRef refs k' := by
  unfold delRef
  by_cases h : k' = k
  · subst h
    rw [if_pos rfl]
    induction refs with
    | nil => rfl
    | cons p ps ih =>
      rw [List.filter_cons]
      by_cases hk : p.1 = k'
      · rw [if_neg (by simp [hk])]; exact ih
      · rw [if_pos (by simp [hk])]
        unfold lookupRef
        rw [List.find?_cons]
        have : (decide (p.1 = k')) = false := by simp [hk]
        rw [this]
        exact ih
  · rw [if_neg h]
    exact lookupRef_filter_ne refs k k' h

theorem getLast?_cons_eq_or {α : Type} (n : α) (ns : List α) :
    (n :: ns).getLast? = ns.getLast?.or (some n) := by
  cases ns with
  | nil => rfl
  | cons b bs =>
    rw [List.getLast?_cons_cons]
    cases h : (b :: bs).getLast? with
    | none =>
      exfalso
      induction bs generalizing b with
      | nil => cases h
      | cons c cs ih => rw [List.getLast?_cons_cons] at h; exact ih c h
    | some v => rfl

theorem lookupRef_writeNodes (ref : String) :
    ∀ (ns : List String) (refs : List (String × String)) (k : String),
      lookupRef (writeNodes refs ref ns) k
        = if k = ref then ns.getLast?.or (lookupRef refs k)
          else lookupRef refs k := by
  intro ns
  induction ns with
  | nil =>
    intro refs k
    by_cases h : k = ref <;> simp [writeNodes, h]
  | cons n ns ih =>
    intro refs k
    rw [writeNodes, ih (setRef refs ref n) k]
    by_cases h : k = ref
    · rw [if_pos h, if_pos h, lookupRef_setRef, if_pos h,
        getLast?_cons_eq_or, Option.or_assoc, Option.or_some]
    · rw [if_neg h, if_neg h, lookupRef_setRef, if_neg h]

theorem strLeads_refName (tree branch : String) :
    strLeads (tree ++ "/") (refName tree branch) = true := by
  unfold strLeads refName
  rw [String.data_append]
  exact listLeads_append _ _

theorem refName_inj (tree b1 b2 : String) (h : refName tree b1 = refName tree b2) :
    b1 = b2 := by
  unfold refName at h
  have hd : (tree ++ "/").data ++ b1.data = (tree ++ "/").data ++ b2.data := by
    rw [← String.data_append, ← String.data_append, h]
  exact String.ext (List.append_cancel_left hd)

/-- Frame over the branch write loop: a ref not named by any processed
branch keeps its binding. -/
theorem lookupRef_writeBranches_notin (tree : String)
    (releaseTrees : List String) :
    ∀ (branchmap : List (String × List String))
      (refs : List (String × String)) (k : String),
      (∀ b ∈ branchmap.map Prod.fst, ¬ k = refName tree b) →
      lookupRef (writeBranches refs tree releaseTrees branchmap) k
        = lookupRef refs k := by
  intro branchmap
  induction branchmap with
  | nil => intro refs k _; rfl
  | cons bn rest ih =>
    intro refs k hk
    rw [writeBranches]
    by_cases hkeep : branchKept tree bn.1 releaseTrees = true
    · rw [if_pos hkeep, ih _ k (fun b hb => hk b (by simp [hb]))]
      rw [lookupRef_writeNodes, if_neg (hk bn.1 (by simp))]
    · rw [if_neg hkeep, ih _ k (fun b hb => hk b (by simp [hb]))]

/-- A ref whose name starts no branch of the tree is in particular not
named by the loop, whatever the branch map. -/
theorem lookupRef_writeBranches_frame (tree : String)
    (releaseTrees : List String) (branchmap : List (String × List String))
    (refs : List (String × String)) (k : String)
    (hk : strLeads (tree ++ "/") k = false) :
    lookupRef (writeBranches refs tree releaseTrees branchmap) k
      = lookupRef refs k := by
  apply lookupRef_writeBranches_notin
  intro b _ hc
  rw [hc, strLeads_refName] at hk
  cases hk

/-- Last write wins: with unique branch names, a kept branch's ref ends
bound to the branch's last head. -/
theorem lookupRef_writeBranches_last (tree : String)
    (releaseTrees : List String) :
    ∀ (branchmap : List (String × List String))
      (refs : List (String × String)) (branch : String)
      (nodes : List String) (v : String),
      (branchmap.map Prod.fst).Nodup →
      (branch, nodes) ∈ branchmap →
      branchKept tree branch releaseTrees = true →
      nodes.getLast? = some v →
      lookupRef (writeBranches refs tree releaseTrees branchmap)
          (refName tree branch) = some v := by
  intro branchmap
  induction branchmap with
  | nil => intro refs branch nodes v _ hmem; cases hmem
  | cons bn rest ih =>
    intro refs branch nodes v hnodup hmem hkeep hlast
    rw [List.map_cons, List.nodup_cons] at hnodup
    rcases List.mem_cons.1 hmem with heq | hmem'
    · subst heq
      rw [writeBranches, if_pos hkeep]
      rw [lookupRef_writeBranches_notin tree releaseTrees rest _ _
        (fun b hb hc => hnodup.1 ((refName_inj tree branch b hc) ▸ hb))]
      rw [lookupRef_writeNodes, if_pos rfl, hlast, Option.or_some]
    · have hbne : ¬ bn.1 = branch := by
        intro hc
        exact hnodup.1 (hc ▸ List.mem_map_of_mem Prod.fst hmem')
      rw [writeBranches]
      by_cases hkeep2 : branchKept tree bn.1 releaseTrees = true
      · rw [if_pos hkeep2]
        exact ih _ branch nodes v hnodup.2 hmem' hkeep hlast
      · rw [if_neg hkeep2]
        exact ih _ branch nodes v hnodup.2 hmem' hkeep hlast

theorem lookupRef_pruneRefs :
    ∀ (dl : List String) (refs : List (String × String)) (k : String),
      lookupRef (pruneRefs refs dl) k
        = if k ∈ dl then none else lookupRef refs k := by
  intro dl
  induction dl with
  | nil => intro refs k; simp [pruneRefs]
  | cons r rest ih =>
    intro refs k
    rw [pruneRefs, ih]
    by_cases hmem : k ∈ rest
    · rw [if_pos hmem, if_pos (by simp [hmem])]
    · rw [if_neg hmem]
      rw [lookupRef_delRef]
      by_cases hkr : k = r
      · rw [if_pos hkr, if_pos (by simp [hkr])]
      · rw [if_neg hkr, if_neg (by simp [hkr, hmem])]

theorem lookupRef_isSome_iff (refs : List (String × String)) (k : String) :
    (lookupRef refs k).isSome = true ↔ k ∈ refs.map Prod.fst := by
  induction refs with
  | nil => simp [lookupRef]
  | cons p ps ih =>
    unfold lookupRef
    rw [List.find?_cons]
    by_cases h : p.1 = k
    · rw [show (decide (p.1 = k)) = true from decide_eq_true h]
      simp [h]
    · rw [show (decide (p.1 = k)) = false from by simp [h]]
      rw [List.map_cons, List.mem_cons]
      unfold lookupRef at ih
      rw [ih]
      constructor
      · exact Or.inr
      · rintro (hc | hm)
        · exact absurd hc.symm h
        · exact hm

theorem writeBranches_isSome (tree : String) (releaseTrees : List String) :
    ∀ (branchmap : List (String × List String))
      (refs : List (String × String)) (k : String),
      (lookupRef refs k).isSome = true →
      (lookupRef (writeBranches refs tree releaseTrees branchmap) k).isSome
        = true := by
  intro branchmap
  induction branchmap with
  | nil => intro refs k h; exact h
  | cons bn rest ih =>
    intro refs k h
    rw [writeBranches]
    by_cases hkeep : branchKept tree bn.1 releaseTrees = true
    · rw [if_pos hkeep]
      apply ih
      rw [lookupRef_writeNodes]
      by_cases hk : k = refName tree bn.1
      · rw [if_pos hk, Option.isSome_or, h, Bool.or_true]
      · rw [if_neg hk]; exact h
    · rw [if_neg hkeep]
      exact ih _ k h

theorem mem_incomingRefs (tree : String)
    (branchmap : List (String × List String)) (releaseTrees : List String)
    (r : String) :
    r ∈ incomingRefs tree branchmap releaseTrees ↔
      ∃ bn ∈ branchmap, branchKept tree bn.1 releaseTrees = true
        ∧ r = refName tree bn.1 := by
  unfold incomingRefs
  rw [List.mem_filterMap]
  constructor
  · rintro ⟨bn, hbn, hf⟩
    by_cases hkeep : branchKept tree bn.1 releaseTrees = true
    · rw [if_pos hkeep, Option.some.injEq] at hf
      exact ⟨bn, hbn, hkeep, hf.symm⟩
    · rw [if_neg hkeep] at hf; cases hf
  · rintro ⟨bn, hbn, hkeep, rfl⟩
    exact ⟨bn, hbn, by rw [if_pos hkeep]⟩

/-- Two slash-free names followed by the separator cannot shadow each other:
`xs ++ "/"` starts `ys ++ "/" ++ zs` only when `xs = ys`. -/
theorem listLeads_sep :
    ∀ (xs ys zs : List Char),
      (∀ c ∈ xs, c ≠ '/') → (∀ c ∈ ys, c ≠ '/') → ys ≠ xs →
      listLeads (xs ++ ['/']) (ys ++ '/' :: zs) = false := by
  intro xs
  induction xs with
  | nil =>
    intro ys zs _ hy hne
    cases ys with
    | nil => exact absurd rfl hne
    | cons y ys' =>
      have hy' : ¬ ('/' : Char) = y := fun hc => (hy y (by simp)) hc.symm
      simp only [List.nil_append, List.cons_append, listLeads]
      simp [hy']
  | cons x xs' ih =>
    intro ys zs hx hy hne
    cases ys with
    | nil =>
      have hx' : ¬ x = '/' := hx x (by simp)
      simp only [List.cons_append, List.nil_append, listLeads]
      simp [hx']
    | cons y ys' =>
      simp only [List.cons_append, listLeads]
      by_cases hxy : x = y
      · subst hxy
        rw [decide_eq_true rfl, Bool.true_and]
        exact ih ys' zs (fun c hc => hx c (by simp [hc]))
          (fun c hc => hy c (by simp [hc]))
          (fun hc => hne (by rw [hc]))
      · simp [hxy]

theorem strLeads_refName_other (tree y b : String)
    (ht : ∀ c ∈ tree.data, c ≠ '/') (hy : ∀ c ∈ y.data, c ≠ '/')
    (hne : y ≠ tree) :
    strLeads (tree ++ "/") (refName y b) = false := by
  unfold strLeads refName
  rw [String.data_append, String.data_append, String.data_append]
  rw [show ("/" : String).data = ['/'] from rfl, List.append_assoc]
  exact listLeads_sep tree.data y.data b.data ht hy
    (fun hc => hne (String.ext hc))

/-- `_update_remote_refs` with the lets resolved. -/
theorem update_remote_refs_eq (refs : List (String × String)) (tree : String)
    (branchmap : List (String × List String)) (releaseTrees : List String) :
    update_remote_refs refs tree branchmap releaseTrees
      = pruneRefs (writeBranches refs tree releaseTrees branchmap)
          (((refs.map (fun p => p.1)).filter
              (fun r => strLeads (tree ++ "/") r)).filter
            (fun r => ¬ (incomingRefs tree branchmap releaseTrees).contains r))
      := rfl

theorem update_remote_refs_lookup (refs : List (String × String))
    (tree : String) (branchmap : List (String × List String))
    (releaseTrees : List String) (r : String) :
    lookupRef (update_remote_refs refs tree branchmap releaseTrees) r
      = if r ∈ (((refs.map (fun p => p.1)).filter
              (fun s => strLeads (tree ++ "/") s)).filter
            (fun s => ¬ (incomingRefs tree branchmap releaseTrees).contains s))
        then none
        else lookupRef (writeBranches refs tree releaseTrees branchmap) r := by
  rw [update_remote_refs_eq, lookupRef_pruneRefs]

/-- C8: reconciling tree `X` deletes exactly the stored `X/`-prefixed refs
absent from the incoming set, keeps the present ones, leaves refs not of the
tree — in particular every other (slash-free) tree's refs — unchanged, and
stores the last-processed head for a multi-head branch. -/
theorem c8_update_remote_refs_semantics (refs : List (String × String))
    (tree : String) (branchmap : List (String × List String))
    (releaseTrees : List String)
    (hnodup : (branchmap.map Prod.fst).Nodup) :
    (∀ r, r ∈ refs.map Prod.fst → strLeads (tree ++ "/") r = true →
      r ∉ incomingRefs tree branchmap releaseTrees →
      lookupRef (update_remote_refs refs tree branchmap releaseTrees) r
        = none) ∧
    (∀ r, r ∈ refs.map Prod.fst →
      r ∈ incomingRefs tree branchmap releaseTrees →
      (lookupRef (update_remote_refs refs tree branchmap releaseTrees)
        r).isSome = true) ∧
    (∀ r, strLeads (tree ++ "/") r = false →
      lookupRef (update_remote_refs refs tree branchmap releaseTrees) r
        = lookupRef refs r) ∧
    (∀ y b, (∀ c ∈ tree.data, c ≠ '/') → (∀ c ∈ y.data, c ≠ '/') →
      y ≠ tree →
      lookupRef (update_remote_refs refs tree branchmap releaseTrees)
          (refName y b)
        = lookupRef refs (refName y b)) ∧
    (∀ branch nodes v, (branch, nodes) ∈ branchmap →
      branchKept tree branch releaseTrees = true →
      nodes.getLast? = some v →
      lookupRef (update_remote_refs refs tree branchmap releaseTrees)
          (refName tree branch) = some v) := by
  have hframe : ∀ r, strLeads (tree ++ "/") r = false →
      lookupRef (update_remote_refs refs tree branchmap releaseTrees) r
        = lookupRef refs r := by
    intro r hlead
    rw [update_remote_refs_lookup]
    rw [if_neg (fun hc => by
      have := (List.mem_filter.1 ((List.mem_filter.1 hc).1)).2
      rw [hlead] at this
      cases this)]
    exact lookupRef_writeBranches_frame tree releaseTrees branchmap refs r hlead
  refine ⟨?_, ?_, hframe, ?_, ?_⟩
  · intro r hmem hlead hnotin
    rw [update_remote_refs_lookup]
    rw [if_pos ?_]
    rw [List.mem_filter, List.mem_filter]
    refine ⟨⟨hmem, hlead⟩, ?_⟩
    simpa using hnotin
  · intro r hmem hin
    rw [update_remote_refs_lookup]
    rw [if_neg (fun hc => by
      have := (List.mem_filter.1 hc).2
      simp only [decide_eq_true_eq] at this
      exact this (by simpa using hin))]
    exact writeBranches_isSome tree releaseTrees branchmap refs r
      ((lookupRef_isSome_iff refs r).2 hmem)
  · intro y b ht hy hne
    exact hframe (refName y b) (strLeads_refName_other tree y b ht hy hne)
  · intro branch nodes v hmem hkeep hlast
    have hin : refName tree branch ∈ incomingRefs tree branchmap releaseTrees :=
      (mem_incomingRefs tree branchmap releaseTrees _).2
        ⟨(branch, nodes), hmem, hkeep, rfl⟩
    rw [update_remote_refs_lookup]
    rw [if_neg (fun hc => by
      have := (List.mem_filter.1 hc).2
      simp only [decide_eq_true_eq] at this
      exact this (by simpa using hin))]
    exact lookupRef_writeBranches_last tree releaseTrees branchmap refs
      branch nodes v hnodup hmem hkeep hlast

/-- C8 witness: reconciling `central` with an incoming map carrying only
`default` (heads `dddd` then `eeee`) against a store holding
`central/default`, `central/old` and `inbound/default`. -/
theorem c8_update_remote_refs_semantics_witness :
    (∀ r, r ∈ [("central/default", "aaaa"), ("central/old", "bbbb"),
        ("inbound/default", "cccc")].map Prod.fst →
      strLeads ("central" ++ "/") r = true →
      r ∉ incomingRefs "central" [("default", ["dddd", "eeee"])] [] →
      lookupRef (update_remote_refs
          [("central/default", "aaaa"), ("central/old", "bbbb"),
           ("inbound/default", "cccc")]
          "central" [("default", ["dddd", "eeee"])] []) r = none) ∧
    (∀ r, r ∈ [("central/default", "aaaa"), ("central/old", "bbbb"),
        ("inbound/default", "cccc")].map Prod.fst →
      r ∈ incomingRefs "central" [("default", ["dddd", "eeee"])] [] →
      (lookupRef (update_remote_refs
          [("central/default", "aaaa"), ("central/old", "bbbb"),
           ("inbound/default", "cccc")]
          "central" [("default", ["dddd", "eeee"])] []) r).isSome = true) ∧
    (∀ r, strLeads ("central" ++ "/") r = false →
      lookupRef (update_remote_refs
          [("central/default", "aaaa"), ("central/old", "bbbb"),
           ("inbound/default", "cccc")]
          "central" [("default", ["dddd", "eeee"])] []) r
        = lookupRef [("central/default", "aaaa"), ("central/old", "bbbb"),
            ("inbound/default", "cccc")] r) ∧
    (∀ y b, (∀ c ∈ ("central" : String).data, c ≠ '/') →
      (∀ c ∈ y.data, c ≠ '/') → y ≠ "central" →
      lookupRef (update_remote_refs
          [("central/default", "aaaa"), ("central/old", "bbbb"),
           ("inbound/default", "cccc")]
          "central" [("default", ["dddd", "eeee"])] []) (refName y b)
        = lookupRef [("central/default", "aaaa"), ("central/old", "bbbb"),
            ("inbound/default", "cccc")] (refName y b)) ∧
    (∀ branch nodes v,
      (branch, nodes) ∈ [("default", ["dddd", "eeee"])] →
      branchKept "central" branch [] = true →
      nodes.getLast? = some v →
      lookupRef (update_remote_refs
          [("central/default", "aaaa"), ("central/old", "bbbb"),
           ("inbound/default", "cccc")]
          "central" [("default", ["dddd", "eeee"])] [])
        (refName "central" branch) = some v) :=
  c8_update_remote_refs_semantics
    [("central/default", "aaaa"), ("central/old", "bbbb"),
     ("inbound/default", "cccc")]
    "central" [("default", ["dddd", "eeee"])] [] (by decide)
